import Mathlib

/-!
Shallow embedding of the brontes DEX-pricing subgraph oracle
(src/crates/brontes-pricing/src/graph/subgraph.rs), the UniswapV2 swap
classifier (src/crates/brontes-classifier/src/classifiers/uniswap/uniswap_v2.rs)
and the run-command startup checks (src/crates/bin/src/cli/run.rs).

Modelling conventions:
* `Address` is ℕ; rationals are ℚ (malachite `Rational` is arbitrary precision
  and exact, as is ℚ).
* The pool-state map `HashMap<Address, PoolState>` is modelled as a total
  function `Address → PoolState`; the Rust code unwraps every lookup, so the
  model covers exactly the non-panicking executions, and no claim concerns a
  missing pool.
* Rust's `BinaryHeap` is modelled as a list: `push` appends, `pop` removes the
  element that is maximal under the `MinScored` order (the earliest such
  element; Rust leaves the choice among equal elements unspecified, and every
  concrete run below is tie-free).
* `Reciprocal` on malachite rationals panics on zero; in ℚ we have `0⁻¹ = 0`.
  Every concrete run and every theorem hypothesis below keeps the reciprocal
  arguments nonzero, so the model and the Rust code agree on those inputs.
* The recursion of the Dijkstra loop is bounded by fuel
  `edges.length + 2`: each node is expanded at most once, each expansion
  pushes at most one heap entry per outgoing adjacency entry, so the number
  of pops (= loop iterations) is at most `1 + edges.length`.
-/

namespace Brontes

abbrev Address := ℕ

/-- `PoolPairInformation` (fields used by subgraph.rs). -/
structure PoolPairInformation where
  pool_addr : Address
  token_0 : Address
  token_1 : Address
deriving DecidableEq

/-- `PoolPairInfoDirection { info, token_0_in }`. -/
structure PoolPairInfoDirection where
  info : PoolPairInformation
  token_0_in : Bool
deriving DecidableEq

/-- Modelled from the spec: `get_base_token` is defined outside src/.  The spec
says edges are stored so that the "in" token equals the source node and that
the per-pool price and TVL are taken with the source (`u`) token as base, so
the base token of a directed pool is its in-token. -/
def PoolPairInfoDirection.get_base_token (d : PoolPairInfoDirection) : Address :=
  if d.token_0_in then d.info.token_0 else d.info.token_1

/-- `SubGraphEdge` from subgraph.rs. -/
structure SubGraphEdge where
  info : PoolPairInfoDirection
  distance_to_start_node : ℕ
  distance_to_end_node : ℕ
deriving DecidableEq

/-- Modelled from the spec: `PoolState` (brontes-pricing `types.rs`, not under
src/) exposes `price(base) → Rational` and `tvl(base) → (Rational, Rational)`
returning the two sides' liquidity priced in `base`. -/
structure PoolState where
  get_price : Address → ℚ
  get_tvl : Address → ℚ × ℚ

/-- The directed graph underlying `PairSubGraph`: nodes are indices, each
directed adjacency entry `(source, target, bundle)` carries the parallel-pool
bundle `Vec<SubGraphEdge>` as its weight (petgraph `DiGraph<(), Vec<SubGraphEdge>>`).
`init` produces at most one entry per ordered node pair. -/
structure SubGraph where
  nodes : ℕ
  edges : List (ℕ × ℕ × List SubGraphEdge)

/-- `graph.edges(node)`: the outgoing adjacency entries of `u`. -/
def edgesFrom (g : SubGraph) (u : ℕ) : List (ℕ × List SubGraphEdge) :=
  g.edges.filterMap (fun t => if t.1 = u then some (t.2.1, t.2.2) else none)

/-- `MinScored<K, T>` from subgraph.rs: a score and a scored object. -/
structure MinScored (K T : Type) where
  k : K
  t : T
deriving DecidableEq

/-- `impl Ord for MinScored` from subgraph.rs, at `K = ℚ`: reverse order on the
score so that the max-heap `BinaryHeap` pops the least score.  The two
`a.ne(a)` branches are the dead NaN cases of the generic Rust code. -/
def MinScored.cmp {T : Type} (a b : MinScored ℚ T) : Ordering :=
  if a.k = b.k then Ordering.eq
  else if a.k < b.k then Ordering.gt
  else if a.k > b.k then Ordering.lt
  else if a.k ≠ a.k ∧ b.k ≠ b.k then Ordering.eq
  else if a.k ≠ a.k then Ordering.lt
  else Ordering.gt

/-- A `BinaryHeap<MinScored<Rational, (NodeId, Rational)>>` entry. -/
abbrev HeapEntry := MinScored ℚ (ℕ × ℚ)

/-- `BinaryHeap::pop`: removes a maximal element under `MinScored.cmp`
(the earliest one; Rust does not specify which equal element is popped). -/
def heapPop : List HeapEntry → Option (HeapEntry × List HeapEntry)
  | [] => none
  | e :: es =>
    match heapPop es with
    | none => some (e, [])
    | some (m, rest) =>
      if MinScored.cmp e m = Ordering.lt then some (m, e :: rest) else some (e, es)

/-- Accumulator of the per-bundle loop of `dijkstra_path` (lines 173-187):
`pxw`, `weight`, `token_0_am`, `token_1_am`. -/
structure BundleAcc where
  pxw : ℚ
  weight : ℚ
  token_0_am : ℚ
  token_1_am : ℚ
deriving DecidableEq

/-- One iteration of the `for info in edge_weight` loop of `dijkstra_path`:
price and TVL of the pool are taken with the bundle's base (source) token, and
the four sums are accumulated. -/
def bundleStep (state : Address → PoolState) (acc : BundleAcc) (info : SubGraphEdge) : BundleAcc :=
  let pool_state := state info.info.info.pool_addr
  let price := pool_state.get_price info.info.get_base_token
  let t := pool_state.get_tvl info.info.get_base_token
  { pxw := acc.pxw + price * (t.1 + t.2)
    weight := acc.weight + (t.1 + t.2)
    token_0_am := acc.token_0_am + t.1
    token_1_am := acc.token_1_am + t.2 }

/-- The `for info in edge_weight` loop of `dijkstra_path`. -/
def bundleAcc (state : Address → PoolState) (edge_weight : List SubGraphEdge) : BundleAcc :=
  edge_weight.foldl (bundleStep state) ⟨0, 0, 0, 0⟩

/-- `local_weighted_price = pxw / weight` (line 193). -/
def localWeightedPrice (state : Address → PoolState) (bundle : List SubGraphEdge) : ℚ :=
  (bundleAcc state bundle).pxw / (bundleAcc state bundle).weight

/-- Lines 171-199 of `dijkstra_path` for one adjacency entry: `none` models the
`continue` on zero bundle weight; otherwise returns `(tvl, new_price)`.
`price` here is the binding popped from the heap together with the node (the
accumulated node price): the per-pool `price` of the inner loop is scoped to
that loop and does not reach lines 195-196. -/
def edgeRelaxData (state : Address → PoolState) (price : ℚ)
    (bundle : List SubGraphEdge) : Option (ℚ × ℚ) :=
  let acc := bundleAcc state bundle
  if acc.weight = 0 then none
  else
    let local_weighted_price := acc.pxw / acc.weight
    let token_0_priced := acc.token_0_am * price
    let new_price := price * local_weighted_price⁻¹
    let token_1_priced := acc.token_1_am * new_price
    some (token_0_priced + token_1_priced, new_price)

/-- The mutable state of `dijkstra_path`: `visited`, `scores`, `node_price`
(association lists looked up front-first, so cons models insert/overwrite)
and the `visit_next` heap. -/
structure DjState where
  visited : List ℕ
  scores : List (ℕ × ℚ)
  node_price : List (ℕ × ℚ)
  visit_next : List HeapEntry

/-- Lines 164-216: relaxation of one adjacency entry `(next, bundle)` from a
node popped with score `node_score` and accumulated price `price`. -/
def relaxEdgeStep (state : Address → PoolState) (node_score price : ℚ)
    (dj : DjState) (e : ℕ × List SubGraphEdge) : DjState :=
  let next := e.1
  if next ∈ dj.visited then dj
  else
    match edgeRelaxData state price e.2 with
    | none => dj
    | some (tvl, new_price) =>
      let next_score := node_score + tvl⁻¹
      match dj.scores.lookup next with
      | some s =>
        if next_score < s then
          { dj with
            scores := (next, next_score) :: dj.scores
            visit_next := dj.visit_next ++ [⟨next_score, (next, new_price)⟩]
            node_price := (next, new_price) :: dj.node_price }
        else dj
      | none =>
        { dj with
          scores := (next, next_score) :: dj.scores
          visit_next := dj.visit_next ++ [⟨next_score, (next, new_price)⟩]
          node_price := (next, new_price) :: dj.node_price }

/-- The `for edge in graph.edges(node)` loop. -/
def relax (state : Address → PoolState) (node_score price : ℚ)
    (dj : DjState) (adj : List (ℕ × List SubGraphEdge)) : DjState :=
  adj.foldl (relaxEdgeStep state node_score price) dj

/-- The `while let Some(MinScored(..)) = visit_next.pop()` loop of
`dijkstra_path`, bounded by fuel. -/
def dijkstraLoop (state : Address → PoolState) (g : SubGraph) (goal : ℕ)
    (fuel : ℕ) (dj : DjState) : DjState :=
  if fuel = 0 then dj
  else
    match heapPop dj.visit_next with
    | none => dj
    | some (e, rest) =>
      let node := e.t.1
      if node ∈ dj.visited then
        dijkstraLoop state g goal (fuel - 1) { dj with visit_next := rest }
      else if goal = node then
        { dj with visit_next := rest }
      else
        let dj' := relax state e.k e.t.2 { dj with visit_next := rest } (edgesFrom g node)
        dijkstraLoop state g goal (fuel - 1) { dj' with visited := node :: dj'.visited }
termination_by fuel
decreasing_by
  all_goals exact Nat.sub_lt (Nat.pos_of_ne_zero (by assumption)) Nat.one_pos

/-- The state of `dijkstra_path` when the loop exits: scores and node prices. -/
def dijkstraFinal (g : SubGraph) (start goal : ℕ) (state : Address → PoolState) : DjState :=
  dijkstraLoop state g goal (g.edges.length + 2)
    ⟨[], [(start, 0)], [], [⟨0, (start, 1)⟩]⟩

/-- `dijkstra_path` (lines 137-221): `node_price.remove(&goal).map(|p| p.reciprocal())`. -/
def dijkstra_path (g : SubGraph) (start goal : ℕ) (state : Address → PoolState) : Option ℚ :=
  ((dijkstraFinal g start goal state).node_price.lookup goal).map (fun p => p⁻¹)

/-- `PairSubGraph` from subgraph.rs (`token_to_index` as a partial map). -/
structure PairSubGraph where
  pair : Address × Address
  graph : SubGraph
  token_to_index : Address → Option ℕ
  start_node : ℕ
  end_node : ℕ

/-- `PairSubGraph::fetch_price`: the `expect` panic on `None` is modelled as
`Except.error` carrying the panic message. -/
def PairSubGraph.fetch_price (g : PairSubGraph) (edge_state : Address → PoolState) :
    Except String ℚ :=
  match dijkstra_path g.graph g.start_node g.end_node edge_state with
  | some p => Except.ok p
  | none => Except.error "dijsktrs on a subgraph failed, should be impossible"

/-- `PairSubGraph::add_new_node` (lines 128-134): it takes `&self`, looks up
both token indices (`unwrap` panics, modelled as `none`, when a token is
absent) and performs no modification: the looked-up `node0`/`node1` are
discarded and the method returns with the subgraph unchanged. -/
def PairSubGraph.add_new_node (g : PairSubGraph) (edge : PoolPairInfoDirection) :
    Option PairSubGraph := do
  let _node0 ← g.token_to_index edge.info.token_0
  let _node1 ← g.token_to_index edge.info.token_1
  pure g

/-- The per-pool price read during relaxation: `state[pool].price(base)` with
the bundle's base (source) token. -/
def priceOf (state : Address → PoolState) (i : SubGraphEdge) : ℚ :=
  (state i.info.info.pool_addr).get_price i.info.get_base_token

/-- The per-pool TVL sides read during relaxation. -/
def tvlPairOf (state : Address → PoolState) (i : SubGraphEdge) : ℚ × ℚ :=
  (state i.info.info.pool_addr).get_tvl i.info.get_base_token

/-- The per-pool total TVL `t0 + t1`. -/
def tvlTotOf (state : Address → PoolState) (i : SubGraphEdge) : ℚ :=
  (tvlPairOf state i).1 + (tvlPairOf state i).2

/-- A walk in the subgraph from `u` to `v`: a chained list of adjacency
entries of `g`. -/
def IsWalk (g : SubGraph) : ℕ → List (ℕ × ℕ × List SubGraphEdge) → ℕ → Prop
  | u, [], v => u = v
  | u, e :: rest, v => e ∈ g.edges ∧ e.1 = u ∧ IsWalk g e.2.1 rest v

/-- Cumulative cost and accumulated price of a walk, under the code's edge
semantics (`edgeRelaxData`, which prices each edge's bundle TVL with the
accumulated price carried along the walk): starting from cost `c` and price
`p`, each step adds `1/tvl` and multiplies the price by `1/lwp`; `none` when
a step's bundle has zero weight. -/
def walkEval (state : Address → PoolState) :
    ℚ → ℚ → List (ℕ × ℕ × List SubGraphEdge) → Option (ℚ × ℚ)
  | c, p, [] => some (c, p)
  | c, p, e :: rest =>
    match edgeRelaxData state p e.2.2 with
    | none => none
    | some (tvl, np) => walkEval state (c + tvl⁻¹) np rest

/-- Modelled from the spec: the spec's bundle TVL formula
`tvl_u = (Σ t0)·p_last + (Σ t1)·p_last/lwp`, where `p_last` is the last
per-pool price observed while iterating the bundle.  Stated as a definition to
be compared with the code's `edgeRelaxData`, which instead multiplies by the
accumulated node price popped from the heap. -/
def specTvlU (sum_t0 sum_t1 p_last lwp : ℚ) : ℚ :=
  sum_t0 * p_last + sum_t1 * (p_last / lwp)

section ConcreteData

/-! Concrete pool-state snapshots and subgraphs used as explicit inputs.
All pools have strictly positive TVL on both sides or on the base side. -/

/-- A consistent snapshot of three pools over tokens A = 100, C = 300,
B = 200: prices are reciprocal across the two bases and each pool's TVL sides
re-base by the price ("the two sides' liquidity priced in base").
Pool 41 (A-B) quotes 4 B-per-A with sides (1,1) in A-units = (4,4) in B-units;
pool 42 (A-C) quotes 1 with sides (10,10) in either base; pool 43 (C-B)
quotes 1 with sides (8,8) in either base.  The direct A-B price 4 disagrees
with the composite A→C→B price 1·1 = 1 (an arbitrage configuration). -/
def stateTri : Address → PoolState :=
  fun addr =>
    if addr = 41 then
      { get_price := fun t => if t = 100 then 4 else 1/4,
        get_tvl := fun t => if t = 100 then (1, 1) else (4, 4) }
    else if addr = 42 then
      { get_price := fun _ => 1, get_tvl := fun _ => (10, 10) }
    else
      { get_price := fun _ => 1, get_tvl := fun _ => (8, 8) }

/-- The `(A,B)` subgraph over `stateTri`'s pools: nodes A = 0, C = 1, B = 2,
edges A→B (pool 41), A→C (pool 42), C→B (pool 43), each edge based at its
source token. -/
def pgTriF : PairSubGraph :=
  ⟨(100, 200),
    ⟨3, [(0, 2, [⟨⟨⟨41, 100, 200⟩, true⟩, 0, 1⟩]),
         (0, 1, [⟨⟨⟨42, 100, 300⟩, true⟩, 0, 1⟩]),
         (1, 2, [⟨⟨⟨43, 300, 200⟩, true⟩, 0, 1⟩])]⟩,
    (fun a => if a = 100 then some 0 else if a = 300 then some 1 else
      if a = 200 then some 2 else none), 0, 2⟩

/-- The `(B,A)` subgraph over the same pools: nodes B = 0, C = 1, A = 2,
edges B→A (pool 41), B→C (pool 43), C→A (pool 42), directions flipped. -/
def pgTriR : PairSubGraph :=
  ⟨(200, 100),
    ⟨3, [(0, 2, [⟨⟨⟨41, 100, 200⟩, false⟩, 0, 1⟩]),
         (0, 1, [⟨⟨⟨43, 300, 200⟩, false⟩, 0, 1⟩]),
         (1, 2, [⟨⟨⟨42, 100, 300⟩, false⟩, 0, 1⟩])]⟩,
    (fun a => if a = 200 then some 0 else if a = 300 then some 1 else
      if a = 100 then some 2 else none), 0, 2⟩

/-- A single pool (address 21) quoting price 2 with TVL sides (1,1). -/
def st3 : Address → PoolState :=
  fun _ => { get_price := fun _ => 2, get_tvl := fun _ => (1, 1) }

/-- A single-edge subgraph over pool 21. -/
def g3 : SubGraph := ⟨2, [(0, 1, [⟨⟨⟨21, 100, 101⟩, true⟩, 0, 1⟩])]⟩

/-- Four pools: 11 on S→U (price 1, tvl 2), 12 on S→X (price 1, tvl 10/3),
13 on X→U (price 1/1000, tvl 2), 14 on U→G (price 1, tvl 1/1000),
where S,X,U,G are nodes 0,1,2,3. -/
def st4 : Address → PoolState :=
  fun a =>
    if a = 11 then { get_price := fun _ => 1, get_tvl := fun _ => (2, 0) }
    else if a = 12 then { get_price := fun _ => 1, get_tvl := fun _ => (10/3, 0) }
    else if a = 13 then { get_price := fun _ => 1/1000, get_tvl := fun _ => (2, 0) }
    else { get_price := fun _ => 1, get_tvl := fun _ => (1/1000, 0) }

/-- The four-node subgraph S=0, X=1, U=2, G=3 with the pools of `st4`. -/
def G4 : SubGraph :=
  ⟨4, [(0, 2, [⟨⟨⟨11, 100, 102⟩, true⟩, 0, 1⟩]),
       (0, 1, [⟨⟨⟨12, 100, 101⟩, true⟩, 0, 1⟩]),
       (1, 2, [⟨⟨⟨13, 101, 102⟩, true⟩, 0, 1⟩]),
       (2, 3, [⟨⟨⟨14, 102, 103⟩, true⟩, 0, 1⟩])]⟩

/-- The walk S→X→U→G in `G4`. -/
def w23 : List (ℕ × ℕ × List SubGraphEdge) :=
  [(0, 1, [⟨⟨⟨12, 100, 101⟩, true⟩, 0, 1⟩]),
   (1, 2, [⟨⟨⟨13, 101, 102⟩, true⟩, 0, 1⟩]),
   (2, 3, [⟨⟨⟨14, 102, 103⟩, true⟩, 0, 1⟩])]

end ConcreteData

lemma bundleAcc_go (state : Address → PoolState) (bundle : List SubGraphEdge) :
    ∀ acc : BundleAcc,
      bundle.foldl (bundleStep state) acc =
        ⟨acc.pxw + (bundle.map fun i => priceOf state i * tvlTotOf state i).sum,
         acc.weight + (bundle.map fun i => tvlTotOf state i).sum,
         acc.token_0_am + (bundle.map fun i => (tvlPairOf state i).1).sum,
         acc.token_1_am + (bundle.map fun i => (tvlPairOf state i).2).sum⟩ := by
  induction bundle with
  | nil => intro acc; simp
  | cons hd tl ih =>
    intro acc
    simp only [List.foldl_cons, List.map_cons, List.sum_cons, ih]
    simp only [bundleStep, priceOf, tvlPairOf, tvlTotOf, BundleAcc.mk.injEq]
    refine ⟨by ring, by ring, by ring, by ring⟩

/-- The four accumulator components are the corresponding sums over the bundle. -/
lemma bundleAcc_eq (state : Address → PoolState) (bundle : List SubGraphEdge) :
    bundleAcc state bundle =
      ⟨(bundle.map fun i => priceOf state i * tvlTotOf state i).sum,
       (bundle.map fun i => tvlTotOf state i).sum,
       (bundle.map fun i => (tvlPairOf state i).1).sum,
       (bundle.map fun i => (tvlPairOf state i).2).sum⟩ := by
  simpa using bundleAcc_go state bundle ⟨0, 0, 0, 0⟩

/-- Claim C4: for every bundle, the locally weighted price computed during
relaxation is exactly `Σ pᵢ·(t0ᵢ+t1ᵢ) / Σ (t0ᵢ+t1ᵢ)` in rational arithmetic,
and a bundle whose TVL sum is zero is skipped: the relaxation step leaves the
Dijkstra state unchanged. -/
theorem claim_C4 :
    (∀ (state : Address → PoolState) (bundle : List SubGraphEdge),
      localWeightedPrice state bundle =
        (bundle.map fun i => priceOf state i * tvlTotOf state i).sum /
        (bundle.map fun i => tvlTotOf state i).sum) ∧
    (∀ (state : Address → PoolState) (node_score price : ℚ) (dj : DjState)
        (next : ℕ) (bundle : List SubGraphEdge),
      (bundle.map fun i => tvlTotOf state i).sum = 0 →
      relaxEdgeStep state node_score price dj (next, bundle) = dj) := by
  constructor
  · intro state bundle
    simp [localWeightedPrice, bundleAcc_eq]
  · intro state node_score price dj next bundle h
    simp [relaxEdgeStep, edgeRelaxData, bundleAcc_eq, h]

/-- Witness for claim C4: the zero-TVL (empty) bundle is skipped on a concrete
state. -/
theorem claim_C4_witness :
    relaxEdgeStep st3 0 1 ⟨[], [(0, 0)], [], []⟩ (5, []) = ⟨[], [(0, 0)], [], []⟩ :=
  claim_C4.2 st3 0 1 ⟨[], [(0, 0)], [], []⟩ 5 [] rfl

/-- Claim C10: for every subgraph and pool-state snapshot, if start equals goal
then `dijkstra_path` returns `none` (not the identity price 1): the goal node
is popped before any relaxation records a price for it, so the node-price map
never contains an entry for the goal. -/
theorem claim_C10 (g : SubGraph) (state : Address → PoolState) (s : ℕ) :
    dijkstra_path g s s state = none := by
  have h2 : g.edges.length + 2 = (g.edges.length + 1) + 1 := rfl
  unfold dijkstra_path dijkstraFinal
  rw [h2]
  simp [dijkstraLoop, heapPop]

set_option maxRecDepth 16000 in
/-- Claim C1 counterexample: over the consistent snapshot `stateTri` (all
pools of nonzero TVL, reciprocal prices, TVL sides re-based by the price),
the two directions settle on different routes — the inverse-TVL costs differ
per direction, so the `(A,B)` query prices the two-hop route A→C→B and
returns its composite price 1, while the `(B,A)` query pops the direct pool
first and returns 1/4 — and `1 · (1/4) ≠ 1`. -/
theorem claim_C1_counterexample :
    pgTriF.fetch_price stateTri = Except.ok 1 ∧
    pgTriR.fetch_price stateTri = Except.ok (1/4) ∧
    ¬ ((1 : ℚ) * (1/4) = 1) :=
  ⟨by with_unfolding_all rfl, by with_unfolding_all rfl, by norm_num⟩

set_option maxRecDepth 8000 in
/-- Claim C3 counterexample: for the single-pool bundle of `g3` (price 2, TVL
sides (1,1)) relaxed from the start node (accumulated price 1), the code adds
edge cost `(3/2)⁻¹ = 2/3` to the score — the bundle TVL is priced with the
accumulated node price — whereas the claimed formula
`tvl_u = (Σ t0)·p_last + (Σ t1)·p_last/lwp` gives `tvl_u = 3` and cost `1/3`. -/
theorem claim_C3_counterexample :
    (dijkstraFinal g3 0 1 st3).scores.lookup 1 = some (2/3) ∧
    edgeRelaxData st3 1 [⟨⟨⟨21, 100, 101⟩, true⟩, 0, 1⟩] = some (3/2, 1/2) ∧
    specTvlU 1 1 2 2 = 3 ∧
    ((2/3 : ℚ) ≠ 0 + (3 : ℚ)⁻¹) :=
  ⟨by with_unfolding_all rfl, by with_unfolding_all rfl, by norm_num [specTvlU], by norm_num⟩

/-- `NormalizedSwap` (the fields produced by the V2 swap decoder).  The Rust
field `from` is a Lean keyword and is named `from_address` here.  Amounts are
U256 values; the decoder only compares them with zero and copies them, so they
are modelled as ℕ. -/
structure NormalizedSwap where
  pool : Address
  trace_index : ℕ
  from_address : Address
  recipient : Address
  token_in : Address
  token_out : Address
  amount_in : ℕ
  amount_out : ℕ
deriving DecidableEq

/-- The `AddressToTokens` record looked up for the target pool. -/
structure PoolTokens where
  token0 : Address
  token1 : Address
deriving DecidableEq

/-- The fields of the decoded `Swap` log. -/
structure V2SwapLog where
  amount0In : ℕ
  amount1In : ℕ
  amount0Out : ℕ
  amount1Out : ℕ
deriving DecidableEq

/-- The `V2SwapImpl` decoder body (uniswap_v2.rs lines 17-53), invoked when the
log pattern `[Ignore<Sync>, Swap]` has matched: the `db_tx.get::<AddressToTokens>`
lookup is modelled as a partial map (`ok()??` propagates a missing entry as
`None`). -/
def v2SwapImpl (trace_index : ℕ) (from_address target_address : Address)
    (call_data_to : Address) (data : V2SwapLog)
    (db : Address → Option PoolTokens) : Option NormalizedSwap := do
  let tokens ← db target_address
  let token_0 := tokens.token0
  let token_1 := tokens.token1
  if data.amount0In = 0 then
    pure { pool := target_address, trace_index := trace_index, from_address := from_address,
           recipient := call_data_to, token_in := token_1, token_out := token_0,
           amount_in := data.amount1In, amount_out := data.amount0Out }
  else
    pure { trace_index := trace_index, pool := target_address, from_address := from_address,
           recipient := call_data_to, token_in := token_0, token_out := token_1,
           amount_in := data.amount0In, amount_out := data.amount1Out }

/-- The errors surfaced by the startup checks of `RunArgs::execute`. -/
inductive RunError where
  | missingRangeState
  | needEndBlock
deriving DecidableEq

/-- The block-range validation of `RunArgs::execute` (run.rs lines 68-83),
performed before any block is processed: when an end block is given, the
persisted libmdbx state for `[start_block, end_block]` must be valid; when dex
pricing is not run, an end block is required.  `Except.ok` means startup
proceeds to block processing. -/
def startupChecks (start_block : ℕ) (end_block : Option ℕ) (run_dex_pricing : Bool)
    (valid_range_state : ℕ → ℕ → Bool) : Except RunError Unit :=
  let range_check : Except RunError Unit :=
    match end_block with
    | some e =>
      if !(valid_range_state start_block e) then Except.error RunError.missingRangeState
      else Except.ok ()
    | none => Except.ok ()
  match range_check with
  | Except.error err => Except.error err
  | Except.ok _ =>
    if !run_dex_pricing then
      if end_block.isNone then Except.error RunError.needEndBlock else Except.ok ()
    else Except.ok ()

set_option maxRecDepth 16000 in
/-- Claim C2 counterexample: in `G4` the algorithm records cumulative cost
`2001/2` for the goal (via S→U→G, since U is settled through the cheaper
direct edge before the alternative route's higher accumulated price is seen),
while the walk S→X→U→G has cumulative cost `9/5 < 2001/2`: the selected
path's cost is not minimal over all start-to-goal paths. -/
theorem claim_C2_counterexample :
    (dijkstraFinal G4 0 3 st4).scores.lookup 3 = some (2001/2) ∧
    IsWalk G4 0 w23 3 ∧
    walkEval st4 0 1 w23 = some (9/5, 1000) ∧
    ((9/5 : ℚ) < 2001/2) := by
  refine ⟨by with_unfolding_all rfl, ?_, by with_unfolding_all rfl, by norm_num⟩
  simp [IsWalk, G4, w23]

/-- Claim C7: for every V2 swap call frame that passes the log pattern with
pool tokens `(T0,T1)`: nonzero `amount0In` decodes to a swap T0→T1 with
amounts `(amount0In, amount1Out)`, and zero `amount0In` decodes to a swap
T1→T0 with amounts `(amount1In, amount0Out)`. -/
theorem claim_C7 (trace_index : ℕ) (from_address target_address call_data_to : Address)
    (data : V2SwapLog) (db : Address → Option PoolTokens) (t0 t1 : Address)
    (hdb : db target_address = some ⟨t0, t1⟩) :
    (data.amount0In ≠ 0 →
      v2SwapImpl trace_index from_address target_address call_data_to data db =
        some ⟨target_address, trace_index, from_address, call_data_to, t0, t1,
              data.amount0In, data.amount1Out⟩) ∧
    (data.amount0In = 0 →
      v2SwapImpl trace_index from_address target_address call_data_to data db =
        some ⟨target_address, trace_index, from_address, call_data_to, t1, t0,
              data.amount1In, data.amount0Out⟩) := by
  constructor <;> intro h <;> simp [v2SwapImpl, hdb, h]

/-- Witness for claim C7: the spec's two concrete scenarios, a token0→token1
swap with amounts (100, 90) and a token1→token0 swap with amounts (50, 45). -/
theorem claim_C7_witness :
    v2SwapImpl 0 1 2 3 ⟨100, 0, 0, 90⟩ (fun a => if a = 2 then some ⟨7, 8⟩ else none) =
      some ⟨2, 0, 1, 3, 7, 8, 100, 90⟩ ∧
    v2SwapImpl 0 1 2 3 ⟨0, 50, 45, 0⟩ (fun a => if a = 2 then some ⟨7, 8⟩ else none) =
      some ⟨2, 0, 1, 3, 8, 7, 50, 45⟩ :=
  ⟨(claim_C7 0 1 2 3 ⟨100, 0, 0, 90⟩ _ 7 8 (by simp)).1 (by decide),
   (claim_C7 0 1 2 3 ⟨0, 50, 45, 0⟩ _ 7 8 (by simp)).2 rfl⟩

/-- Claim C9: the run command errors out before processing any block exactly
when an end block is given whose persisted range state is invalid, or when dex
pricing is disabled without an end block; otherwise startup proceeds. -/
theorem claim_C9 (start_block : ℕ) (end_block : Option ℕ) (run_dex_pricing : Bool)
    (valid_range_state : ℕ → ℕ → Bool) :
    startupChecks start_block end_block run_dex_pricing valid_range_state = Except.ok () ↔
      ((∀ e, end_block = some e → valid_range_state start_block e = true) ∧
       (run_dex_pricing = true ∨ end_block ≠ none)) := by
  cases end_block with
  | none => cases run_dex_pricing <;> simp [startupChecks]
  | some e =>
    cases hv : valid_range_state start_block e <;> cases run_dex_pricing <;>
      simp [startupChecks, hv]

/-- Witness for claim C9: a run with an end block, valid range state and dex
pricing enabled proceeds to block processing. -/
theorem claim_C9_witness :
    startupChecks 1 (some 2) true (fun _ _ => true) = Except.ok () :=
  (claim_C9 1 (some 2) true (fun _ _ => true)).mpr
    ⟨fun _ h => by simp at h ⊢, Or.inl rfl⟩

/-- `MinScored.cmp` classification: `gt` means strictly smaller score. -/
lemma minScoredCmp_gt_iff (a b : HeapEntry) :
    MinScored.cmp a b = Ordering.gt ↔ a.k < b.k := by
  unfold MinScored.cmp
  rcases lt_trichotomy a.k b.k with h | h | h
  · simp [h, h.ne]
  · simp [h, lt_irrefl]
  · simp [gt_iff_lt, h, h.ne, h.ne', not_lt_of_lt h, lt_irrefl]

/-- `MinScored.cmp` classification: `eq` exactly on equal scores, regardless of
the payloads. -/
lemma minScoredCmp_eq_iff (a b : HeapEntry) :
    MinScored.cmp a b = Ordering.eq ↔ a.k = b.k := by
  unfold MinScored.cmp
  rcases lt_trichotomy a.k b.k with h | h | h
  · simp [h, h.ne]
  · simp [h]
  · simp [gt_iff_lt, h, h.ne, h.ne', not_lt_of_lt h]

/-- `MinScored.cmp` classification: `lt` means strictly larger score. -/
lemma minScoredCmp_lt_iff (a b : HeapEntry) :
    MinScored.cmp a b = Ordering.lt ↔ b.k < a.k := by
  unfold MinScored.cmp
  rcases lt_trichotomy a.k b.k with h | h | h
  · simp [h, h.ne, not_lt_of_lt h]
  · simp [h, lt_irrefl]
  · simp [gt_iff_lt, h, h.ne, h.ne', not_lt_of_lt h]

/-- When `heapPop` yields nothing the heap was empty. -/
lemma heapPop_eq_none {l : List HeapEntry} (h : heapPop l = none) : l = [] := by
  cases l with
  | nil => rfl
  | cons hd tl =>
    rw [heapPop] at h
    cases htl : heapPop tl with
    | none => rw [htl] at h; dsimp only at h; exact absurd h (by simp)
    | some p =>
      obtain ⟨m, r⟩ := p
      rw [htl] at h
      dsimp only at h
      by_cases hc : MinScored.cmp hd m = Ordering.lt
      · rw [if_pos hc] at h; exact absurd h (by simp)
      · rw [if_neg hc] at h; exact absurd h (by simp)

/-- The element popped by `heapPop` has minimal score in the heap. -/
lemma heapPop_min :
    ∀ (l : List HeapEntry) (e : HeapEntry) (rest : List HeapEntry),
      heapPop l = some (e, rest) → ∀ x ∈ l, e.k ≤ x.k := by
  intro l
  induction l with
  | nil => intro e rest h; simp [heapPop] at h
  | cons hd tl ih =>
    intro e rest h x hx
    rw [heapPop] at h
    cases htl : heapPop tl with
    | none =>
      have htl0 : tl = [] := heapPop_eq_none htl
      rw [htl] at h
      dsimp only at h
      injection h with h2
      injection h2 with he hr
      subst he
      subst htl0
      rcases List.mem_cons.mp hx with rfl | hx'
      · exact le_refl _
      · simp at hx'
    | some p =>
      obtain ⟨m, r⟩ := p
      rw [htl] at h
      dsimp only at h
      by_cases hc : MinScored.cmp hd m = Ordering.lt
      · rw [if_pos hc] at h
        injection h with h2
        injection h2 with he hr
        subst he
        rcases List.mem_cons.mp hx with rfl | hx'
        · exact le_of_lt ((minScoredCmp_lt_iff x m).mp hc)
        · exact ih m r htl x hx'
      · rw [if_neg hc] at h
        injection h with h2
        injection h2 with he hr
        subst he
        rcases List.mem_cons.mp hx with rfl | hx'
        · exact le_refl _
        · have h1 : hd.k ≤ m.k := by
            rcases lt_trichotomy hd.k m.k with hh | hh | hh
            · exact le_of_lt hh
            · exact le_of_eq hh
            · exact absurd ((minScoredCmp_lt_iff hd m).mpr hh) hc
          exact le_trans h1 (ih m r htl x hx')

/-- Claim C8 (amended part): `MinScored` inverts the exact rational order, so
the max-heap pop of `heapPop` returns an entry of least cumulative cost;
entries of equal cost compare `Equal` whatever their payloads (there is no
insertion-sequence component in the key). -/
theorem claim_C8 :
    (∀ a b : HeapEntry, MinScored.cmp a b = Ordering.gt ↔ a.k < b.k) ∧
    (∀ a b : HeapEntry, MinScored.cmp a b = Ordering.eq ↔ a.k = b.k) ∧
    (∀ (l : List HeapEntry) (e : HeapEntry) (rest : List HeapEntry),
      heapPop l = some (e, rest) → ∀ x ∈ l, e.k ≤ x.k) :=
  ⟨minScoredCmp_gt_iff, minScoredCmp_eq_iff, heapPop_min⟩

/-- Witness for claim C8: a concrete inverted comparison and a concrete pop of
the least-cost entry. -/
theorem claim_C8_witness :
    (MinScored.cmp (⟨1, (0, 1)⟩ : HeapEntry) ⟨2, (0, 1)⟩ = Ordering.gt) ∧
    ((⟨1, (5, 1)⟩ : HeapEntry).k ≤ (⟨1, (5, 1)⟩ : HeapEntry).k) :=
  ⟨(claim_C8.1 ⟨1, (0, 1)⟩ ⟨2, (0, 1)⟩).mpr (by norm_num),
   claim_C8.2.2 [⟨1, (5, 1)⟩] ⟨1, (5, 1)⟩ [] (by rfl) ⟨1, (5, 1)⟩ (by simp)⟩

/-- Claim C8 counterexample: two entries with equal cumulative cost but
different payloads compare `Equal`: the heap key consists of the score alone
and carries no insertion sequence number, so equal-cost entries cannot be
distinguished by the order. -/
theorem claim_C8_counterexample :
    MinScored.cmp (⟨3, (0, 1)⟩ : HeapEntry) ⟨3, (7, 5)⟩ = Ordering.eq ∧
    ((⟨3, (0, 1)⟩ : HeapEntry) ≠ ⟨3, (7, 5)⟩) := by
  constructor
  · simp [MinScored.cmp]
  · simp [MinScored.mk.injEq]

/-- Claim C6: `add_new_node` never modifies the subgraph.  When both tokens of
the pool are already nodes it returns with the subgraph unchanged (no edge is
added to any bundle); when a token is absent the `unwrap` panics (`none`). -/
theorem claim_C6 (g : PairSubGraph) (edge : PoolPairInfoDirection)
    (h0 : (g.token_to_index edge.info.token_0).isSome = true)
    (h1 : (g.token_to_index edge.info.token_1).isSome = true) :
    g.add_new_node edge = some g := by
  obtain ⟨n0, e0⟩ := Option.isSome_iff_exists.mp h0
  obtain ⟨n1, e1⟩ := Option.isSome_iff_exists.mp h1
  simp [PairSubGraph.add_new_node, e0, e1]

/-- A two-node subgraph with no edges over tokens 100 and 200. -/
def pgC6 : PairSubGraph :=
  ⟨(100, 200), ⟨2, []⟩,
    (fun a => if a = 100 then some 0 else if a = 200 then some 1 else none), 0, 1⟩

/-- Witness for claim C6: adding a pool between two existing token nodes
leaves the subgraph unchanged. -/
theorem claim_C6_witness :
    pgC6.add_new_node ⟨⟨55, 100, 200⟩, true⟩ = some pgC6 :=
  claim_C6 pgC6 ⟨⟨55, 100, 200⟩, true⟩ rfl rfl

/-- Claim C3 (amended): when a yet-unscored node `next` is relaxed through a
bundle of nonzero weight, the score recorded for it is
`node_score + 1/tvl` with `tvl = (Σ t0)·P + (Σ t1)·(P/lwp)` where `P` is the
accumulated price popped from the heap with the relaxed node (1 at the start
node) — not the last per-pool price of the bundle. -/
theorem claim_C3 (state : Address → PoolState) (node_score price : ℚ) (dj : DjState)
    (next : ℕ) (bundle : List SubGraphEdge)
    (hvis : next ∉ dj.visited) (hvac : dj.scores.lookup next = none)
    (hw : (bundle.map fun i => tvlTotOf state i).sum ≠ 0) :
    (relaxEdgeStep state node_score price dj (next, bundle)).scores.lookup next =
      some (node_score +
        ((bundle.map fun i => (tvlPairOf state i).1).sum * price +
         (bundle.map fun i => (tvlPairOf state i).2).sum *
           (price * (localWeightedPrice state bundle)⁻¹))⁻¹) := by
  simp only [relaxEdgeStep, edgeRelaxData, localWeightedPrice, bundleAcc_eq, if_neg hvis,
    if_neg hw, hvac]
  simp [List.lookup]

/-- The single-pool bundle of subgraph `g3`. -/
def bundle3 : List SubGraphEdge := [⟨⟨⟨21, 100, 101⟩, true⟩, 0, 1⟩]

/-- Witness for claim C3: the relaxation of `g3`'s only edge from the start
node records the accumulated-price-based cost. -/
theorem claim_C3_witness :
    (relaxEdgeStep st3 0 1 ⟨[], [(0, 0)], [], []⟩ (1, bundle3)).scores.lookup 1 =
      some (0 + ((bundle3.map fun i => (tvlPairOf st3 i).1).sum * 1 +
        (bundle3.map fun i => (tvlPairOf st3 i).2).sum *
          (1 * (localWeightedPrice st3 bundle3)⁻¹))⁻¹) :=
  claim_C3 st3 0 1 ⟨[], [(0, 0)], [], []⟩ 1 bundle3 (by simp) rfl
    (by norm_num [bundle3, tvlTotOf, tvlPairOf, st3, PoolPairInfoDirection.get_base_token])

/-- The element popped by `heapPop` belongs to the heap, and the remaining
elements all belonged to the heap. -/
lemma heapPop_mem :
    ∀ (l : List HeapEntry) (e : HeapEntry) (rest : List HeapEntry),
      heapPop l = some (e, rest) → e ∈ l ∧ ∀ x ∈ rest, x ∈ l := by
  intro l
  induction l with
  | nil => intro e rest h; simp [heapPop] at h
  | cons hd tl ih =>
    intro e rest h
    rw [heapPop] at h
    cases htl : heapPop tl with
    | none =>
      rw [htl] at h
      dsimp only at h
      injection h with h2
      injection h2 with he hr
      subst he
      subst hr
      exact ⟨List.mem_cons_self _ _, by simp⟩
    | some p =>
      obtain ⟨m, r⟩ := p
      rw [htl] at h
      dsimp only at h
      obtain ⟨hm, hr'⟩ := ih m r htl
      by_cases hc : MinScored.cmp hd m = Ordering.lt
      · rw [if_pos hc] at h
        injection h with h2
        injection h2 with he hr
        subst he
        subst hr
        refine ⟨List.mem_cons_of_mem _ hm, ?_⟩
        intro x hx
        rcases List.mem_cons.mp hx with rfl | hx'
        · exact List.mem_cons_self _ _
        · exact List.mem_cons_of_mem _ (hr' x hx')
      · rw [if_neg hc] at h
        injection h with h2
        injection h2 with he hr
        subst he
        subst hr
        exact ⟨List.mem_cons_self _ _, fun x hx => List.mem_cons_of_mem _ hx⟩

/-- A successful relaxation implies the bundle weight was nonzero. -/
lemma edgeRelaxData_weight_ne {state : Address → PoolState} {price : ℚ}
    {bundle : List SubGraphEdge} {tvl np : ℚ}
    (h : edgeRelaxData state price bundle = some (tvl, np)) :
    (bundleAcc state bundle).weight ≠ 0 := by
  intro hw
  simp only [edgeRelaxData, hw] at h
  simp at h

/-- An adjacency entry of `edgesFrom` comes from an edge of the graph. -/
lemma mem_edgesFrom {g : SubGraph} {u : ℕ} {pr : ℕ × List SubGraphEdge}
    (h : pr ∈ edgesFrom g u) : (u, pr.1, pr.2) ∈ g.edges := by
  unfold edgesFrom at h
  rw [List.mem_filterMap] at h
  obtain ⟨t, ht, heq⟩ := h
  obtain ⟨t1, t2, t3⟩ := t
  by_cases htu : t1 = u
  · rw [if_pos (by simpa using htu)] at heq
    injection heq with h1
    subst htu
    rw [← h1]
    exact ht
  · rw [if_neg (by simpa using htu)] at heq
    exact absurd heq (by simp)

/-- Invariant carried through the Dijkstra loop: every heap entry satisfies
`Q node score price`, and every scores / node-price entry satisfies `Q` for
some matching price / score. -/
def DjInv (Q : ℕ → ℚ → ℚ → Prop) (dj : DjState) : Prop :=
  (∀ e ∈ dj.visit_next, Q e.t.1 e.k e.t.2) ∧
  (∀ k s, dj.scores.lookup k = some s → ∃ p, Q k s p) ∧
  (∀ k p, dj.node_price.lookup k = some p → ∃ s, Q k s p)

/-- A relaxation's insertion (cons to scores and node prices, push to the
heap) preserves the invariant when the inserted triple satisfies `Q`. -/
lemma DjInv_cons (Q : ℕ → ℚ → ℚ → Prop) (dj : DjState) (next : ℕ) (ns np : ℚ)
    (hinv : DjInv Q dj) (hq : Q next ns np) :
    DjInv Q { dj with
      scores := (next, ns) :: dj.scores
      visit_next := dj.visit_next ++ [⟨ns, (next, np)⟩]
      node_price := (next, np) :: dj.node_price } := by
  obtain ⟨h1, h2, h3⟩ := hinv
  refine ⟨?_, ?_, ?_⟩
  · intro e he
    rcases List.mem_append.mp he with he' | he'
    · exact h1 e he'
    · have : e = ⟨ns, (next, np)⟩ := by simpa using he'
      subst this
      exact hq
  · intro k s hk
    rw [List.lookup_cons] at hk
    cases hbeq : (k == next) with
    | false => rw [hbeq] at hk; exact h2 k s hk
    | true =>
      rw [hbeq] at hk
      dsimp only at hk
      injection hk with hs
      subst hs
      have := eq_of_beq hbeq
      subst this
      exact ⟨np, hq⟩
  · intro k p hk
    rw [List.lookup_cons] at hk
    cases hbeq : (k == next) with
    | false => rw [hbeq] at hk; exact h3 k p hk
    | true =>
      rw [hbeq] at hk
      dsimp only at hk
      injection hk with hp
      subst hp
      have := eq_of_beq hbeq
      subst this
      exact ⟨ns, hq⟩

/-- One relaxation step preserves the invariant, provided `Q` holds for the
would-be inserted triple when the edge's bundle relaxes successfully. -/
lemma relaxEdgeStep_inv (state : Address → PoolState) (Q : ℕ → ℚ → ℚ → Prop)
    (node_score price : ℚ) (dj : DjState) (pr : ℕ × List SubGraphEdge)
    (hinv : DjInv Q dj)
    (hnew : ∀ tvl np, edgeRelaxData state price pr.2 = some (tvl, np) →
      Q pr.1 (node_score + tvl⁻¹) np) :
    DjInv Q (relaxEdgeStep state node_score price dj pr) := by
  simp only [relaxEdgeStep]
  by_cases hv : pr.1 ∈ dj.visited
  · rw [if_pos hv]; exact hinv
  · rw [if_neg hv]
    cases hrd : edgeRelaxData state price pr.2 with
    | none => exact hinv
    | some q =>
      obtain ⟨tvl, np⟩ := q
      dsimp only
      have hq : Q pr.1 (node_score + tvl⁻¹) np := hnew tvl np hrd
      cases hlk : dj.scores.lookup pr.1 with
      | some s =>
        dsimp only
        by_cases hlt : node_score + tvl⁻¹ < s
        · rw [if_pos hlt]
          exact DjInv_cons Q dj pr.1 _ _ hinv hq
        · rw [if_neg hlt]; exact hinv
      | none =>
        exact DjInv_cons Q dj pr.1 _ _ hinv hq

/-- The relaxation of all outgoing adjacency entries preserves the invariant. -/
lemma relax_inv (state : Address → PoolState) (Q : ℕ → ℚ → ℚ → Prop)
    (node_score price : ℚ) (adj : List (ℕ × List SubGraphEdge)) :
    ∀ dj, DjInv Q dj →
      (∀ pr ∈ adj, ∀ tvl np, edgeRelaxData state price pr.2 = some (tvl, np) →
        Q pr.1 (node_score + tvl⁻¹) np) →
      DjInv Q (relax state node_score price dj adj) := by
  induction adj with
  | nil => intro dj h _; exact h
  | cons hd tl ih =>
    intro dj h hnew
    simp only [relax, List.foldl_cons]
    exact ih _
      (relaxEdgeStep_inv state Q node_score price dj hd h (hnew hd (List.mem_cons_self _ _)))
      (fun pr hpr => hnew pr (List.mem_cons_of_mem _ hpr))

/-- The Dijkstra loop preserves the invariant when `Q` is closed under
relaxation along edges of the graph. -/
lemma dijkstraLoop_inv (state : Address → PoolState) (g : SubGraph) (goal : ℕ)
    (Q : ℕ → ℚ → ℚ → Prop)
    (hQ : ∀ u ns P v bundle tvl np, Q u ns P → (u, v, bundle) ∈ g.edges →
      edgeRelaxData state P bundle = some (tvl, np) → Q v (ns + tvl⁻¹) np) :
    ∀ fuel dj, DjInv Q dj → DjInv Q (dijkstraLoop state g goal fuel dj) := by
  intro fuel
  induction fuel using Nat.strong_induction_on with
  | _ fuel ih =>
    intro dj hinv
    rw [dijkstraLoop]
    by_cases hf : fuel = 0
    · rw [if_pos hf]; exact hinv
    · rw [if_neg hf]
      cases hpop : heapPop dj.visit_next with
      | none => exact hinv
      | some p =>
        obtain ⟨e, rest⟩ := p
        dsimp only
        obtain ⟨hel, hrest⟩ := heapPop_mem _ _ _ hpop
        have hrestinv : DjInv Q { dj with visit_next := rest } :=
          ⟨fun x hx => hinv.1 x (hrest x hx), hinv.2.1, hinv.2.2⟩
        by_cases hv : e.t.1 ∈ dj.visited
        · rw [if_pos hv]
          exact ih (fuel - 1) (Nat.sub_lt (Nat.pos_of_ne_zero hf) Nat.one_pos) _ hrestinv
        · rw [if_neg hv]
          by_cases hg : goal = e.t.1
          · rw [if_pos hg]; exact hrestinv
          · rw [if_neg hg]
            have hQe : Q e.t.1 e.k e.t.2 := hinv.1 e hel
            have hrel :
                DjInv Q (relax state e.k e.t.2 { dj with visit_next := rest }
                  (edgesFrom g e.t.1)) := by
              apply relax_inv state Q e.k e.t.2 (edgesFrom g e.t.1) _ hrestinv
              intro pr hpr tvl np hrd
              exact hQ e.t.1 e.k e.t.2 pr.1 pr.2 tvl np hQe (mem_edgesFrom hpr) hrd
            exact ih (fuel - 1) (Nat.sub_lt (Nat.pos_of_ne_zero hf) Nat.one_pos) _
              ⟨hrel.1, hrel.2.1, hrel.2.2⟩

/-- An adjacency entry of `g` from `u` to `v` whose bundle has nonzero weight
under `state` (zero-weight bundles are skipped by the relaxation). -/
def hasLiveEdge (state : Address → PoolState) (g : SubGraph) (u v : ℕ) : Prop :=
  ∃ bundle, (u, v, bundle) ∈ g.edges ∧ (bundleAcc state bundle).weight ≠ 0

/-- Reachability along edges of nonzero bundle weight. -/
def LiveReaches (state : Address → PoolState) (g : SubGraph) : ℕ → ℕ → Prop :=
  Relation.ReflTransGen (hasLiveEdge state g)

/-- When the goal is not reachable from the start along nonzero-weight edges,
no relaxation ever records a price for it and `dijkstra_path` returns `none`. -/
lemma dijkstra_path_unreachable (g : SubGraph) (start goal : ℕ)
    (state : Address → PoolState) (h : ¬ LiveReaches state g start goal) :
    dijkstra_path g start goal state = none := by
  have hinv : DjInv (fun n _ _ => LiveReaches state g start n)
      (dijkstraFinal g start goal state) := by
    unfold dijkstraFinal
    apply dijkstraLoop_inv
    · intro u ns P v bundle tvl np hQ hmem hrd
      exact Relation.ReflTransGen.tail hQ ⟨bundle, hmem, edgeRelaxData_weight_ne hrd⟩
    · refine ⟨?_, ?_, ?_⟩
      · intro e he
        have : e = ⟨0, (start, 1)⟩ := by simpa using he
        subst this
        exact Relation.ReflTransGen.refl
      · intro k s hk
        rw [List.lookup_cons] at hk
        cases hbeq : (k == start) with
        | false => rw [hbeq] at hk; simp [List.lookup] at hk
        | true =>
          have := eq_of_beq hbeq
          subst this
          exact ⟨1, Relation.ReflTransGen.refl⟩
      · intro k p hk
        simp [List.lookup] at hk
  unfold dijkstra_path
  cases hnp : (dijkstraFinal g start goal state).node_price.lookup goal with
  | none => simp
  | some p =>
    obtain ⟨s, hs⟩ := hinv.2.2 goal p hnp
    exact absurd hs h

/-- Claim C5 (amended): when the goal is unreachable along nonzero-weight
edges, `dijkstra_path` returns `none`; `fetch_price`, however, does not
return that `None` to the caller — it panics (the `expect` message) on it. -/
theorem claim_C5 :
    (∀ (g : SubGraph) (start goal : ℕ) (state : Address → PoolState),
      ¬ LiveReaches state g start goal → dijkstra_path g start goal state = none) ∧
    (∀ (pg : PairSubGraph) (state : Address → PoolState),
      dijkstra_path pg.graph pg.start_node pg.end_node state = none →
      pg.fetch_price state =
        Except.error "dijsktrs on a subgraph failed, should be impossible") := by
  constructor
  · exact dijkstra_path_unreachable
  · intro pg state h
    simp [PairSubGraph.fetch_price, h]

/-- A two-node subgraph with no edges: its goal is unreachable. -/
def pgC5 : PairSubGraph :=
  ⟨(100, 200), ⟨2, []⟩,
    (fun a => if a = 100 then some 0 else if a = 200 then some 1 else none), 0, 1⟩

/-- Claim C5 counterexample: on a pricing gap (goal unreachable) the price
query does not surface `None` to the caller: `dijkstra_path` produces `None`
but `fetch_price` fails with the `expect` panic. -/
theorem claim_C5_counterexample :
    dijkstra_path pgC5.graph pgC5.start_node pgC5.end_node stateTri = none ∧
    pgC5.fetch_price stateTri =
      Except.error "dijsktrs on a subgraph failed, should be impossible" :=
  ⟨by with_unfolding_all rfl, by with_unfolding_all rfl⟩

/-- Witness for claim C5: both conjuncts applied to the edgeless subgraph. -/
theorem claim_C5_witness :
    dijkstra_path pgC5.graph 0 1 stateTri = none ∧
    pgC5.fetch_price stateTri =
      Except.error "dijsktrs on a subgraph failed, should be impossible" := by
  have hnr : ¬ LiveReaches stateTri pgC5.graph 0 1 := by
    intro h
    rcases Relation.ReflTransGen.cases_head h with h01 | ⟨z, hz, -⟩
    · exact absurd h01 (by decide)
    · obtain ⟨bundle, hmem, -⟩ := hz
      simp [pgC5] at hmem
  have h1 := claim_C5.1 pgC5.graph 0 1 stateTri hnr
  exact ⟨h1, claim_C5.2 pgC5 stateTri h1⟩

/-- `IsWalk` composes with a final edge. -/
lemma isWalk_append_edge {g : SubGraph} :
    ∀ {w : List (ℕ × ℕ × List SubGraphEdge)} {u v t : ℕ} {bundle : List SubGraphEdge},
      IsWalk g u w v → (v, t, bundle) ∈ g.edges → IsWalk g u (w ++ [(v, t, bundle)]) t := by
  intro w
  induction w with
  | nil =>
    intro u v t bundle hw hmem
    have hu : u = v := hw
    subst hu
    exact ⟨hmem, rfl, rfl⟩
  | cons e rest ih =>
    intro u v t bundle hw hmem
    obtain ⟨hmem', he1, hrest⟩ := hw
    exact ⟨hmem', he1, ih hrest hmem⟩

/-- `walkEval` over a walk extended by one edge. -/
lemma walkEval_append (state : Address → PoolState) :
    ∀ (w : List (ℕ × ℕ × List SubGraphEdge)) (c p : ℚ) (e : ℕ × ℕ × List SubGraphEdge),
      walkEval state c p (w ++ [e]) =
        match walkEval state c p w with
        | none => none
        | some (c', p') =>
          match edgeRelaxData state p' e.2.2 with
          | none => none
          | some (tvl, np) => some (c' + tvl⁻¹, np) := by
  intro w
  induction w with
  | nil =>
    intro c p e
    simp only [List.nil_append, walkEval]
  | cons hd tlw ih =>
    intro c p e
    rw [List.cons_append]
    simp only [walkEval]
    cases hrd : edgeRelaxData state p hd.2.2 with
    | none => rfl
    | some q => obtain ⟨tvl, np⟩ := q; exact ih _ _ _

/-- A walk from `start` to `n` whose evaluation from cost 0 and price 1 gives
`(s, p)`. -/
def Realizes (state : Address → PoolState) (g : SubGraph) (start n : ℕ) (s p : ℚ) : Prop :=
  ∃ w, IsWalk g start w n ∧ walkEval state 0 1 w = some (s, p)

/-- Realized triples are closed under successful relaxation along an edge. -/
lemma realizes_step (state : Address → PoolState) (g : SubGraph) (start : ℕ)
    {u v : ℕ} {bundle : List SubGraphEdge} {ns P tvl np : ℚ}
    (h : Realizes state g start u ns P) (hmem : (u, v, bundle) ∈ g.edges)
    (hrd : edgeRelaxData state P bundle = some (tvl, np)) :
    Realizes state g start v (ns + tvl⁻¹) np := by
  obtain ⟨w, hw, he⟩ := h
  refine ⟨w ++ [(u, v, bundle)], isWalk_append_edge hw hmem, ?_⟩
  rw [walkEval_append, he]
  simp [hrd]

/-- Claim C2 (amended): every cumulative cost recorded by the algorithm — in
particular the score of the goal — is the cost `Σ 1/tvl` of an actual
start-to-goal walk of the subgraph, with the TVLs priced through the walk's
accumulated prices exactly as the code does (soundness).  Minimality over all
walks fails: see the counterexample. -/
theorem claim_C2 (g : SubGraph) (start goal : ℕ) (state : Address → PoolState) (s : ℚ)
    (h : (dijkstraFinal g start goal state).scores.lookup goal = some s) :
    ∃ w p, IsWalk g start w goal ∧ walkEval state 0 1 w = some (s, p) := by
  have hinv : DjInv (Realizes state g start) (dijkstraFinal g start goal state) := by
    unfold dijkstraFinal
    apply dijkstraLoop_inv
    · intro u ns P v bundle tvl np hQ hmem hrd
      exact realizes_step state g start hQ hmem hrd
    · refine ⟨?_, ?_, ?_⟩
      · intro e he
        have : e = ⟨0, (start, 1)⟩ := by simpa using he
        subst this
        exact ⟨[], rfl, rfl⟩
      · intro k s' hk
        rw [List.lookup_cons] at hk
        cases hbeq : (k == start) with
        | false => rw [hbeq] at hk; simp [List.lookup] at hk
        | true =>
          rw [hbeq] at hk
          dsimp only at hk
          injection hk with hs
          subst hs
          have := eq_of_beq hbeq
          subst this
          exact ⟨1, [], rfl, rfl⟩
      · intro k p hk
        simp [List.lookup] at hk
  obtain ⟨p, w, hw, he⟩ := hinv.2.1 goal s h
  exact ⟨w, p, hw, he⟩

set_option maxRecDepth 16000 in
/-- Witness for claim C2: the goal score recorded in the `G4` run is realized
by an actual walk. -/
theorem claim_C2_witness :
    ∃ w p, IsWalk G4 0 w 3 ∧ walkEval st4 0 1 w = some (2001/2, p) :=
  claim_C2 G4 0 3 st4 (2001/2) (by with_unfolding_all rfl)

/-- A consistent snapshot of the two pools 31 and 32 between tokens A = 100
and B = 200: pool i quotes `pᵢ` with A as base and `pᵢ⁻¹` with B as base, and
its TVL sides `(a0ᵢ, a1ᵢ)` in A-units re-base to `(pᵢ·a0ᵢ, pᵢ·a1ᵢ)` in
B-units ("the two sides' liquidity priced in base"). -/
def twoPoolState (p1 p2 a01 a11 a02 a12 : ℚ) : Address → PoolState :=
  fun addr =>
    if addr = 31 then
      { get_price := fun t => if t = 100 then p1 else p1⁻¹,
        get_tvl := fun t => if t = 100 then (a01, a11) else (p1 * a01, p1 * a11) }
    else
      { get_price := fun t => if t = 100 then p2 else p2⁻¹,
        get_tvl := fun t => if t = 100 then (a02, a12) else (p2 * a02, p2 * a12) }

/-- The `(A,B)` subgraph: one direct edge whose bundle holds pools 31 and 32,
based at A. -/
def pgPairF : PairSubGraph :=
  ⟨(100, 200),
    ⟨2, [(0, 1, [⟨⟨⟨31, 100, 200⟩, true⟩, 0, 1⟩, ⟨⟨⟨32, 100, 200⟩, true⟩, 0, 1⟩])]⟩,
    (fun a => if a = 100 then some 0 else if a = 200 then some 1 else none), 0, 1⟩

/-- The `(B,A)` subgraph over the same two pools, direction flipped. -/
def pgPairR : PairSubGraph :=
  ⟨(200, 100),
    ⟨2, [(0, 1, [⟨⟨⟨31, 100, 200⟩, false⟩, 0, 1⟩, ⟨⟨⟨32, 100, 200⟩, false⟩, 0, 1⟩])]⟩,
    (fun a => if a = 200 then some 0 else if a = 100 then some 1 else none), 0, 1⟩

/-- Symbolic run of `dijkstra_path` on a single-edge subgraph with an
arbitrary bundle: the start is popped, the one edge relaxed, the goal popped;
the returned price is the reciprocal of `1 · lwp⁻¹`. -/
lemma dijkstra_single_bundle (bundle : List SubGraphEdge) (state : Address → PoolState)
    (hw : (bundleAcc state bundle).weight ≠ 0) :
    dijkstra_path ⟨2, [(0, 1, bundle)]⟩ 0 1 state =
      some ((1 * ((bundleAcc state bundle).pxw / (bundleAcc state bundle).weight)⁻¹)⁻¹) := by
  simp [dijkstra_path, dijkstraFinal, dijkstraLoop, heapPop, relax, relaxEdgeStep,
    edgeRelaxData, edgesFrom, hw, List.lookup]

/-- Claim C1 (amended): price symmetry holds for one-hop subgraphs.  For a
pair priced over a single direct edge whose bundle holds pools of nonzero TVL
with reciprocal prices and price-consistent cross-base TVLs — even pools of
differing prices — the oracle returns the liquidity-weighted mean
`(p₁w₁ + p₂w₂)/(w₁ + w₂)` forward and its exact reciprocal backward (the
reverse weights are `pᵢwᵢ`, so the reverse mean is `(w₁+w₂)/(p₁w₁+p₂w₂)`),
and the product is exactly 1 in rational arithmetic.  For multi-hop subgraphs
the two directions can settle on routes of different composite prices and the
product deviates from 1 (see the counterexample). -/
theorem claim_C1 (p1 p2 a01 a11 a02 a12 : ℚ) (hp1 : 0 < p1) (hp2 : 0 < p2)
    (h01 : 0 ≤ a01) (h11 : 0 ≤ a11) (h02 : 0 ≤ a02) (h12 : 0 ≤ a12)
    (hw1 : 0 < a01 + a11) (hw2 : 0 < a02 + a12) :
    pgPairF.fetch_price (twoPoolState p1 p2 a01 a11 a02 a12) =
      Except.ok ((p1 * (a01 + a11) + p2 * (a02 + a12)) / ((a01 + a11) + (a02 + a12))) ∧
    pgPairR.fetch_price (twoPoolState p1 p2 a01 a11 a02 a12) =
      Except.ok (((a01 + a11) + (a02 + a12)) / (p1 * (a01 + a11) + p2 * (a02 + a12))) ∧
    ((p1 * (a01 + a11) + p2 * (a02 + a12)) / ((a01 + a11) + (a02 + a12))) *
      (((a01 + a11) + (a02 + a12)) / (p1 * (a01 + a11) + p2 * (a02 + a12))) = 1 := by
  have hp1' : p1 ≠ 0 := ne_of_gt hp1
  have hp2' : p2 ≠ 0 := ne_of_gt hp2
  have hW : (a01 + a11) + (a02 + a12) ≠ 0 := ne_of_gt (by linarith)
  have hP : p1 * (a01 + a11) + p2 * (a02 + a12) ≠ 0 :=
    ne_of_gt (add_pos (mul_pos hp1 hw1) (mul_pos hp2 hw2))
  have hacc : bundleAcc (twoPoolState p1 p2 a01 a11 a02 a12)
      [⟨⟨⟨31, 100, 200⟩, true⟩, 0, 1⟩, ⟨⟨⟨32, 100, 200⟩, true⟩, 0, 1⟩] =
      ⟨p1 * (a01 + a11) + p2 * (a02 + a12), (a01 + a11) + (a02 + a12),
       a01 + a02, a11 + a12⟩ := by
    simp [bundleAcc, bundleStep, twoPoolState, PoolPairInfoDirection.get_base_token,
      BundleAcc.mk.injEq]
  have haccr : bundleAcc (twoPoolState p1 p2 a01 a11 a02 a12)
      [⟨⟨⟨31, 100, 200⟩, false⟩, 0, 1⟩, ⟨⟨⟨32, 100, 200⟩, false⟩, 0, 1⟩] =
      ⟨(a01 + a11) + (a02 + a12), p1 * (a01 + a11) + p2 * (a02 + a12),
       p1 * a01 + p2 * a02, p1 * a11 + p2 * a12⟩ := by
    simp only [bundleAcc, bundleStep, twoPoolState, PoolPairInfoDirection.get_base_token,
      List.foldl_cons, List.foldl_nil]
    simp [BundleAcc.mk.injEq]
    constructor
    · field_simp
      ring
    · ring
  refine ⟨?_, ?_, ?_⟩
  · have hd := dijkstra_single_bundle
      [⟨⟨⟨31, 100, 200⟩, true⟩, 0, 1⟩, ⟨⟨⟨32, 100, 200⟩, true⟩, 0, 1⟩]
      (twoPoolState p1 p2 a01 a11 a02 a12) (by rw [hacc]; exact hW)
    rw [hacc] at hd
    dsimp only at hd
    simp only [PairSubGraph.fetch_price, pgPairF, hd]
    rw [one_mul, inv_inv]
  · have hd := dijkstra_single_bundle
      [⟨⟨⟨31, 100, 200⟩, false⟩, 0, 1⟩, ⟨⟨⟨32, 100, 200⟩, false⟩, 0, 1⟩]
      (twoPoolState p1 p2 a01 a11 a02 a12) (by rw [haccr]; exact hP)
    rw [haccr] at hd
    dsimp only at hd
    simp only [PairSubGraph.fetch_price, pgPairR, hd]
    rw [one_mul, inv_inv]
  · field_simp

/-- Witness for claim C1: pools of differing prices 1 and 2 with equal TVL
sides (1,1) in A-units — the forward mean is 3/2 and the reverse mean is its
exact reciprocal 2/3, product 1. -/
theorem claim_C1_witness :
    pgPairF.fetch_price (twoPoolState 1 2 1 1 1 1) =
      Except.ok ((1 * (1 + 1) + 2 * (1 + 1)) / ((1 + 1) + (1 + 1))) ∧
    pgPairR.fetch_price (twoPoolState 1 2 1 1 1 1) =
      Except.ok (((1 + 1) + (1 + 1)) / (1 * (1 + 1) + 2 * (1 + 1))) ∧
    (((1 : ℚ) * (1 + 1) + 2 * (1 + 1)) / ((1 + 1) + (1 + 1))) *
      ((((1 : ℚ) + 1) + (1 + 1)) / (1 * (1 + 1) + 2 * (1 + 1))) = 1 :=
  claim_C1 1 2 1 1 1 1 (by norm_num) (by norm_num) (by norm_num) (by norm_num)
    (by norm_num) (by norm_num) (by norm_num) (by norm_num)

end Brontes
